import Mathlib

/-!
Shallow embedding of `azul_plugin_repeated_bytes/repeated_bytes.py`.

Byte buffers are modelled as `List Nat` (one entry per byte).  Python slices
`data[a:b]` become `take`/`drop` combinations, the generator
`find_possible_repeat_widths` becomes the (finite) list of offsets it yields,
and the tri-valued result of `data_repeats` (None / -1 / width) becomes
`Option Int` with `none` for None and `some (-1)` for the abort marker.
-/

abbrev ByteSeq := List Nat

/-- Embeds the module constant `SEARCH_BLOCK_SIZE = 32`. -/
def SEARCH_BLOCK_SIZE : Nat := 32

/-- Embeds the module constant `MAXIMUM_WIDTH_ATTEMPTS = 1024`. -/
def MAXIMUM_WIDTH_ATTEMPTS : Nat := 1024

/-- Byte at index `j` (0 when out of range, matching total modelling). -/
def byteAt (data : ByteSeq) (j : Nat) : Nat := data.getD j 0

/-- Embeds `data_repeats_exactly_n_times(data, n)`: reject unless `n` divides
the length, then compare every chunk `data[chunksize*i : chunksize*(i+1)]`
for `i = 1 .. n-1` against the first chunk `data[:chunksize]`. -/
def data_repeats_exactly_n_times (data : ByteSeq) (n : Nat) : Bool :=
  if data.length % n ≠ 0 then false
  else
    (List.range (n - 1)).all fun i =>
      data.take (data.length / n) ==
        (data.drop (data.length / n * (i + 1))).take (data.length / n)

/-- Trial-division loop used to model `pyprimesieve.factorize`: emits the
smallest divisor `d ≥ 2` of `n` each time it divides, so the resulting list
is the prime factorization of `n` with multiplicity in ascending order
(fuel-based so that it is structurally recursive; `2 * n` steps suffice). -/
def factorize_go : Nat → Nat → Nat → List Nat
  | 0, _, _ => []
  | fuel + 1, n, d =>
    if n < 2 then []
    else if n % d = 0 then d :: factorize_go fuel (n / d) d
    else factorize_go fuel n (d + 1)

/-- Models the library call `pyprimesieve.factorize(n)` expanded to a flat
list of prime factors with multiplicity, smallest first — exactly the list
the Python code builds with `prime_factors.extend([p] * c)`. -/
def py_factorize (n : Nat) : List Nat :=
  factorize_go (2 * n) n 2

/-- The loop body of `data_repeats_exactly_n_times_recursive`: walk the list
of prime factors, checking each factor and shrinking the data to its first
`len/p` bytes after each success. -/
def data_repeats_recursive_go (data : ByteSeq) : List Nat → Bool
  | [] => true
  | p :: rest =>
    if data_repeats_exactly_n_times data p then
      data_repeats_recursive_go (data.take (data.length / p)) rest
    else false

/-- Embeds `data_repeats_exactly_n_times_recursive(data, n)`. -/
def data_repeats_exactly_n_times_recursive (data : ByteSeq) (n : Nat) : Bool :=
  data_repeats_recursive_go data (py_factorize n)

/-- Embeds `data_repeats_with_width(data, width)`: if the fractional
remainder is non-empty it must equal the head of the buffer
(`data[:remainder] == data[-remainder:]`), then the whole-repeat portion is
delegated to the recursive validator. -/
def data_repeats_with_width (data : ByteSeq) (width : Nat) : Bool :=
  if data.length % width ≠ 0 then
    if data.take (data.length % width) ==
        data.drop (data.length - data.length % width) then
      data_repeats_exactly_n_times_recursive
        (data.take (data.length - data.length % width)) (data.length / width)
    else false
  else
    data_repeats_exactly_n_times_recursive data (data.length / width)

/-- One occurrence test: the pattern occurs verbatim at offset `o`
(`data[o : o + len(pattern)] == pattern`, with the slice fully inside
the buffer). -/
def occursAt (data pat : ByteSeq) (o : Nat) : Bool :=
  decide (o + pat.length ≤ data.length) && ((data.drop o).take pat.length == pat)

/-- Denotation of Python `data.find(pat, start)`: the least offset `o ≥ start`
at which the pattern occurs, if any. -/
def bytesFind (data pat : ByteSeq) (start : Nat) : Option Nat :=
  ((List.range (data.length + 1)).filter
    fun o => decide (start ≤ o) && occursAt data pat o).head?

/-- The `while True` loop of `find_possible_repeat_widths`, with fuel (the
offsets strictly increase, so `data.length + 1` steps always suffice). -/
def find_widths_go (data pat : ByteSeq) : Nat → Nat → List Nat
  | _, 0 => []
  | offset, fuel + 1 =>
    match bytesFind data pat (offset + 1) with
    | none => []
    | some o => o :: find_widths_go data pat o fuel

/-- Embeds the generator `find_possible_repeat_widths(data)` as the list of
all offsets it yields, in order. -/
def find_possible_repeat_widths (data : ByteSeq) : List Nat :=
  find_widths_go data (data.take SEARCH_BLOCK_SIZE) 0 (data.length + 1)

/-- The countdown loop of `check_for_minimal_repeat_at_end`, testing
remainder sizes `s, s-1, ..., 1`. -/
def check_end_go (data : ByteSeq) : Nat → Option Nat
  | 0 => none
  | s + 1 =>
    if s + 1 ≥ data.length then check_end_go data s
    else if data.drop (data.length - (s + 1)) == data.take (s + 1) then
      some (data.length - (s + 1))
    else check_end_go data s

/-- Embeds `check_for_minimal_repeat_at_end(data)`: scan remainder sizes from
`SEARCH_BLOCK_SIZE - 1` down to 1 and return `len(data) - size` for the first
size whose tail slice equals the head slice. -/
def check_for_minimal_repeat_at_end (data : ByteSeq) : Option Nat :=
  check_end_go data (SEARCH_BLOCK_SIZE - 1)

/-- The `for offset in find_possible_repeat_widths(data)` loop of
`data_repeats`, together with the attempt counter and the tail fallback
executed when the generator is exhausted (this mirrors the Python control
flow: success returns the offset, the counter aborts with -1 when it reaches
`MAXIMUM_WIDTH_ATTEMPTS`, and the `if width:` truthiness test guards the
fallback result). -/
def search_loop (data : ByteSeq) : List Nat → Nat → Option Int
  | [], _ =>
    match check_for_minimal_repeat_at_end data with
    | some width => if width ≠ 0 then some (width : Int) else none
    | none => none
  | offset :: rest, attempts =>
    if data_repeats_with_width data offset then some (offset : Int)
    else if attempts + 1 = MAXIMUM_WIDTH_ATTEMPTS then some (-1)
    else search_loop data rest (attempts + 1)

/-- Embeds `data_repeats(data)`: `none` for fewer than 2 bytes, brute force
over widths `1 .. len-1` for buffers of at most `SEARCH_BLOCK_SIZE` bytes,
otherwise the generator-driven search with budget and tail fallback. -/
def data_repeats (data : ByteSeq) : Option Int :=
  if data.length < 2 then none
  else if data.length ≤ SEARCH_BLOCK_SIZE then
    match (List.range' 1 (data.length - 1)).find?
        (fun w => data_repeats_with_width data w) with
    | some w => some (w : Int)
    | none => none
  else
    search_loop data (find_possible_repeat_widths data) 0

/-- Reconstruction used by the round-trip claim: repeat the block `B` and
truncate to `L` bytes. -/
def repeat_truncate (B : ByteSeq) (L : Nat) : ByteSeq :=
  (List.range L).map fun j => byteAt B (j % B.length)

/-- The data has period `w`: every byte equals the byte at its index reduced
modulo `w`. -/
def isPeriodic (data : ByteSeq) (w : Nat) : Prop :=
  ∀ j < data.length, byteAt data j = byteAt data (j % w)

instance (data : ByteSeq) (w : Nat) : Decidable (isPeriodic data w) := by
  unfold isPeriodic; infer_instance

/-! Basic pointwise tools for slices. -/

theorem byteAt_take (data : ByteSeq) (k j : Nat) (h : j < k) :
    byteAt (data.take k) j = byteAt data j := by
  simp only [byteAt, List.getD_eq_getElem?_getD]
  rw [List.getElem?_take, if_pos h]

theorem byteAt_drop (data : ByteSeq) (a i : Nat) :
    byteAt (data.drop a) i = byteAt data (a + i) := by
  simp only [byteAt, List.getD_eq_getElem?_getD]
  rw [List.getElem?_drop]

theorem eq_of_byteAt (l₁ l₂ : ByteSeq) (h : l₁.length = l₂.length)
    (hb : ∀ j < l₁.length, byteAt l₁ j = byteAt l₂ j) : l₁ = l₂ := by
  apply List.ext_getElem h
  intro i h1 h2
  have h3 := hb i h1
  rwa [byteAt, byteAt, List.getD_eq_getElem l₁ 0 h1, List.getD_eq_getElem l₂ 0 h2] at h3

/-! Periodicity lemmas. -/

theorem isPeriodic_of_dvd (data : ByteSeq) (c w : Nat) (h : c ∣ w)
    (hp : isPeriodic data c) : isPeriodic data w := by
  intro j hj
  have h1 := hp j hj
  have h2 := hp (j % w) (lt_of_le_of_lt (Nat.mod_le j w) hj)
  rw [Nat.mod_mod_of_dvd j h] at h2
  rw [h1, h2]

theorem periodic_iff_shift (data : ByteSeq) (w : Nat) (hw : 1 ≤ w) :
    isPeriodic data w ↔
      ∀ i, i + w < data.length → byteAt data (i + w) = byteAt data i := by
  constructor
  · intro hp i hi
    have h1 := hp (i + w) hi
    have h2 := hp i (by omega)
    rw [Nat.add_mod_right] at h1
    rw [h1, h2]
  · intro hs j
    induction j using Nat.strong_induction_on with
    | _ j ih =>
      intro hj
      by_cases hjw : j < w
      · rw [Nat.mod_eq_of_lt hjw]
      · push_neg at hjw
        have h1 : byteAt data ((j - w) + w) = byteAt data (j - w) := hs (j - w) (by omega)
        rw [show (j - w) + w = j by omega] at h1
        have h2 : byteAt data (j - w) = byteAt data ((j - w) % w) :=
          ih (j - w) (by omega) (by omega)
        have h3 : (j - w) % w = j % w := by
          conv_rhs => rw [show j = (j - w) + w by omega]
          rw [Nat.add_mod_right]
        rw [h1, h2, h3]

theorem tail_slice_iff (data : ByteSeq) (s : Nat) (hs : s ≤ data.length) :
    (data.take s = data.drop (data.length - s)) ↔
      ∀ i < s, byteAt data i = byteAt data (data.length - s + i) := by
  constructor
  · intro h i hi
    have h1 := congrArg (fun l => byteAt l i) h
    simp only at h1
    rwa [byteAt_take data s i hi, byteAt_drop] at h1
  · intro h
    apply eq_of_byteAt
    · simp [List.length_take, List.length_drop]; omega
    · intro i hi
      have hi2 : i < s := by simp [List.length_take] at hi; omega
      rw [byteAt_take data s i hi2, byteAt_drop]
      exact h i hi2

/-! Characterization of the naive validator. -/

theorem chunks_iff (data : ByteSeq) (n c : Nat) (hlen : data.length = n * c) :
    (((List.range (n - 1)).all fun i =>
      data.take c == (data.drop (c * (i + 1))).take c) = true) ↔ isPeriodic data c := by
  rw [List.all_eq_true]
  simp only [List.mem_range, beq_iff_eq]
  constructor
  · intro h j hj
    have hc : 0 < c := by
      rcases Nat.eq_zero_or_pos c with hc0 | hc0
      · rw [hc0, Nat.mul_zero] at hlen; omega
      · exact hc0
    have hs : j % c < c := Nat.mod_lt _ hc
    have hq : j / c < n := by
      rw [Nat.div_lt_iff_lt_mul hc]
      omega
    rcases Nat.eq_zero_or_pos (j / c) with hq0 | hq0
    · have : j < c := by
        have := Nat.div_add_mod j c
        rw [hq0] at this
        omega
      rw [Nat.mod_eq_of_lt this]
    · have hchunk := h (j / c - 1) (by omega)
      rw [show j / c - 1 + 1 = j / c by omega] at hchunk
      have h1 := congrArg (fun l => byteAt l (j % c)) hchunk
      simp only at h1
      rw [byteAt_take data c _ hs, byteAt_take _ c _ hs, byteAt_drop] at h1
      have h2 : c * (j / c) + j % c = j := Nat.div_add_mod j c
      rw [h2] at h1
      exact h1.symm
  · intro hp i hi
    have hn2 : i + 2 ≤ n := by omega
    have hmul : (i + 2) * c ≤ n * c := Nat.mul_le_mul_right c hn2
    have hexp : (i + 2) * c = c * (i + 1) + c := by ring
    apply eq_of_byteAt
    · simp [List.length_take, List.length_drop]; omega
    · intro s hsl
      have hs : s < c := by
        simp [List.length_take] at hsl
        omega
      rw [byteAt_take data c s hs, byteAt_take _ c s hs, byteAt_drop]
      have hj : c * (i + 1) + s < data.length := by omega
      have h1 := hp (c * (i + 1) + s) hj
      rw [Nat.mul_add_mod, Nat.mod_eq_of_lt hs] at h1
      exact h1.symm

theorem naive_char (data : ByteSeq) (n : Nat) :
    data_repeats_exactly_n_times data n = true ↔
      n ∣ data.length ∧ isPeriodic data (data.length / n) := by
  unfold data_repeats_exactly_n_times
  by_cases h : data.length % n = 0
  · have hdvd : n ∣ data.length := Nat.dvd_of_mod_eq_zero h
    have hlen : data.length = n * (data.length / n) := (Nat.mul_div_cancel' hdvd).symm
    rw [if_neg (by omega)]
    rw [chunks_iff data n (data.length / n) hlen]
    simp [hdvd]
  · rw [if_pos h]
    simp only [Bool.false_eq_true, false_iff]
    rintro ⟨hdvd, -⟩
    exact h (Nat.mod_eq_zero_of_dvd hdvd)

/-! Properties of the modelled factorization. -/

theorem factorize_go_pos : ∀ (fuel n d : Nat), 2 ≤ d →
    ∀ q ∈ factorize_go fuel n d, 2 ≤ q := by
  intro fuel
  induction fuel with
  | zero => intro n d hd q hq; simp [factorize_go] at hq
  | succ fuel ih =>
    intro n d hd q hq
    rcases Nat.lt_or_ge n 2 with h1 | h1
    · simp [factorize_go, h1] at hq
    · by_cases h2 : n % d = 0
      · simp only [factorize_go] at hq
        rw [if_neg (show ¬ n < 2 by omega), if_pos h2] at hq
        rcases List.mem_cons.mp hq with rfl | hq2
        · exact hd
        · exact ih (n / d) d hd q hq2
      · simp only [factorize_go] at hq
        rw [if_neg (show ¬ n < 2 by omega), if_neg h2] at hq
        exact ih n (d + 1) (by omega) q hq

theorem factorize_go_prod : ∀ (fuel n d : Nat), 2 ≤ d → 1 ≤ n →
    (∀ p, 2 ≤ p → p < d → ¬ p ∣ n) → 2 * n - d + 1 ≤ fuel →
    (factorize_go fuel n d).prod = n := by
  intro fuel
  induction fuel with
  | zero => intro n d _ _ _ hfuel; omega
  | succ fuel ih =>
    intro n d hd hn hinv hfuel
    rcases Nat.lt_or_ge n 2 with h1 | h1
    · have hn1 : n = 1 := by omega
      subst hn1
      simp [factorize_go]
    · have hdn : d ≤ n := by
        by_contra hcon
        push_neg at hcon
        obtain ⟨p, hp, hpd⟩ := Nat.exists_prime_and_dvd (show n ≠ 1 by omega)
        have hp2 : 2 ≤ p := hp.two_le
        have hpn : p ≤ n := Nat.le_of_dvd (by omega) hpd
        exact hinv p hp2 (by omega) hpd
      by_cases h2 : n % d = 0
      · have hdvd : d ∣ n := Nat.dvd_of_mod_eq_zero h2
        simp only [factorize_go]
        rw [if_neg (show ¬ n < 2 by omega), if_pos h2, List.prod_cons]
        have hrec : (factorize_go fuel (n / d) d).prod = n / d := by
          apply ih (n / d) d hd (Nat.div_pos hdn (by omega))
          · intro p hp2 hpd hpdvd
            exact hinv p hp2 hpd (hpdvd.trans (Nat.div_dvd_of_dvd hdvd))
          · have hhalf : n / d ≤ n / 2 := Nat.div_le_div_left hd (by omega)
            have hself : n / 2 * 2 ≤ n := Nat.div_mul_le_self n 2
            omega
        rw [hrec]
        exact Nat.mul_div_cancel' hdvd
      · simp only [factorize_go]
        rw [if_neg (show ¬ n < 2 by omega), if_neg h2]
        apply ih n (d + 1) (by omega) (by omega)
        · intro p hp2 hpd1 hpdvd
          rcases Nat.lt_or_ge p d with hc | hc
          · exact hinv p hp2 hc hpdvd
          · have hpd : p = d := by omega
            subst hpd
            exact h2 (Nat.mod_eq_zero_of_dvd hpdvd)
        · omega

theorem py_factorize_pos (n : Nat) : ∀ q ∈ py_factorize n, 0 < q := by
  intro q hq
  have := factorize_go_pos (2 * n) n 2 (by omega) q hq
  omega

theorem py_factorize_prod (n : Nat) (hn : 1 ≤ n) : (py_factorize n).prod = n := by
  apply factorize_go_prod (2 * n) n 2 (by omega) hn
  · intro p hp2 hpd
    omega
  · omega

/-! Characterization of the recursive validator. -/

theorem periodic_glue (data : ByteSeq) (p m : Nat) (hp : 0 < p)
    (hpdvd : p ∣ data.length) (hper : isPeriodic data (data.length / p)) :
    ((m ∣ data.length / p ∧
        isPeriodic (data.take (data.length / p)) (data.length / p / m)) ↔
      (p * m ∣ data.length ∧ isPeriodic data (data.length / (p * m)))) := by
  have hdle : data.length / p ≤ data.length := Nat.div_le_self _ _
  have hlen_take : (data.take (data.length / p)).length = data.length / p := by
    simp [List.length_take]; omega
  have hdivdiv : data.length / p / m = data.length / (p * m) :=
    Nat.div_div_eq_div_mul _ _ _
  constructor
  · rintro ⟨hm, hperT⟩
    refine ⟨(Nat.dvd_div_iff_mul_dvd hpdvd).mp hm, ?_⟩
    rw [← hdivdiv]
    intro j hj
    have hlen0 : 0 < data.length := by omega
    have hd0 : 0 < data.length / p :=
      Nat.div_pos (Nat.le_of_dvd hlen0 hpdvd) hp
    have hcd : data.length / p / m ∣ data.length / p := Nat.div_dvd_of_dvd hm
    have h1 := hper j hj
    have hjd : j % (data.length / p) < data.length / p := Nat.mod_lt _ hd0
    have h2 := hperT (j % (data.length / p)) (by rw [hlen_take]; exact hjd)
    rw [byteAt_take _ _ _ hjd,
      byteAt_take _ _ _ (lt_of_le_of_lt (Nat.mod_le _ _) hjd),
      Nat.mod_mod_of_dvd j hcd] at h2
    rw [h1, h2]
  · rintro ⟨hpm, hperC⟩
    have hm : m ∣ data.length / p := (Nat.dvd_div_iff_mul_dvd hpdvd).mpr hpm
    refine ⟨hm, ?_⟩
    rw [hdivdiv]
    intro j hj
    rw [hlen_take] at hj
    have hjlen : j < data.length := lt_of_lt_of_le hj hdle
    have h1 := hperC j hjlen
    rw [byteAt_take _ _ _ hj,
      byteAt_take _ _ _ (lt_of_le_of_lt (Nat.mod_le _ _) hj)]
    exact h1

theorem rec_go_char : ∀ (L : List Nat) (data : ByteSeq), (∀ p ∈ L, 0 < p) →
    (data_repeats_recursive_go data L = true ↔
      (L.prod ∣ data.length ∧ isPeriodic data (data.length / L.prod))) := by
  intro L
  induction L with
  | nil =>
    intro data _
    simp only [data_repeats_recursive_go, List.prod_nil, Nat.div_one]
    constructor
    · intro _
      exact ⟨one_dvd _, fun j hj => by rw [Nat.mod_eq_of_lt hj]⟩
    · intro _
      trivial
  | cons p L ih =>
    intro data hpos
    have hp : 0 < p := hpos p (by simp)
    have hpos2 : ∀ q ∈ L, 0 < q := fun q hq => hpos q (by simp [hq])
    simp only [data_repeats_recursive_go, List.prod_cons]
    by_cases hnaive : data_repeats_exactly_n_times data p = true
    · rw [if_pos hnaive]
      obtain ⟨hpdvd, hper⟩ := (naive_char data p).mp hnaive
      have hlen_take : (data.take (data.length / p)).length = data.length / p := by
        simp [List.length_take]
        exact Nat.div_le_self _ _
      rw [ih (data.take (data.length / p)) hpos2, hlen_take]
      exact periodic_glue data p L.prod hp hpdvd hper
    · rw [if_neg hnaive]
      simp only [Bool.false_eq_true, false_iff]
      rintro ⟨hpm, hperC⟩
      apply hnaive
      rw [naive_char data p]
      have hpdvd : p ∣ data.length := (dvd_mul_right p L.prod).trans hpm
      refine ⟨hpdvd, ?_⟩
      have hm : L.prod ∣ data.length / p := (Nat.dvd_div_iff_mul_dvd hpdvd).mpr hpm
      have hcd : data.length / (p * L.prod) ∣ data.length / p := by
        rw [← Nat.div_div_eq_div_mul]
        exact Nat.div_dvd_of_dvd hm
      exact isPeriodic_of_dvd data _ _ hcd hperC

theorem rec_char (data : ByteSeq) (n : Nat) (hn : 1 ≤ n) :
    data_repeats_exactly_n_times_recursive data n = true ↔
      (n ∣ data.length ∧ isPeriodic data (data.length / n)) := by
  unfold data_repeats_exactly_n_times_recursive
  rw [rec_go_char (py_factorize n) data (py_factorize_pos n), py_factorize_prod n hn]

/-! Characterization of the width feasibility checker. -/

theorem width_char (data : ByteSeq) (W : Nat) (hW : 1 ≤ W) :
    data_repeats_with_width data W = true ↔ isPeriodic data W := by
  unfold data_repeats_with_width
  by_cases hr : data.length % W = 0
  · rw [if_neg (by omega)]
    by_cases hlen : data.length = 0
    · have hdata : data = [] := List.length_eq_zero.mp hlen
      subst hdata
      simp [data_repeats_exactly_n_times_recursive, py_factorize, factorize_go,
        data_repeats_recursive_go, isPeriodic]
    · have hlen0 : 0 < data.length := by omega
      have hdvd : W ∣ data.length := Nat.dvd_of_mod_eq_zero hr
      have hn : 1 ≤ data.length / W := Nat.div_pos (Nat.le_of_dvd hlen0 hdvd) (by omega)
      rw [rec_char data _ hn]
      have h1 : data.length / (data.length / W) = W := Nat.div_div_self hdvd (by omega)
      have h2 : data.length / W ∣ data.length := Nat.div_dvd_of_dvd hdvd
      rw [h1]
      simp [h2]
  · rw [if_pos hr]
    have hrlt : data.length % W < W := Nat.mod_lt _ (by omega)
    have hrle : data.length % W ≤ data.length := Nat.mod_le _ _
    have hlen0 : 0 < data.length := by
      rcases Nat.eq_zero_or_pos data.length with h0 | h0
      · rw [h0] at hr; simp at hr
      · exact h0
    by_cases hsmall : data.length < W
    · have hreq : data.length % W = data.length := Nat.mod_eq_of_lt hsmall
      rw [hreq, Nat.sub_self, List.drop_zero, List.take_length,
        if_pos (beq_self_eq_true data), List.take_zero, Nat.div_eq_of_lt hsmall]
      constructor
      · intro _ j hj
        rw [Nat.mod_eq_of_lt (by omega)]
      · intro _
        rfl
    · push_neg at hsmall
      have hn : 1 ≤ data.length / W := Nat.div_pos hsmall (by omega)
      have hbody : data.length - data.length % W = W * (data.length / W) := by
        have := Nat.div_add_mod data.length W
        omega
      have hWle : W ≤ data.length - data.length % W := by
        have h1 : W * 1 ≤ W * (data.length / W) := Nat.mul_le_mul_left W hn
        omega
      by_cases hA : data.take (data.length % W) = data.drop (data.length - data.length % W)
      · rw [if_pos (beq_iff_eq.mpr hA)]
        have hlen_take : (data.take (data.length - data.length % W)).length =
            data.length - data.length % W := by
          simp [List.length_take]
        rw [rec_char _ _ hn, hlen_take]
        have hq : (data.length - data.length % W) / (data.length / W) = W := by
          rw [hbody]
          exact Nat.mul_div_cancel W hn
        have hdvd2 : data.length / W ∣ data.length - data.length % W := by
          rw [hbody]
          exact dvd_mul_left _ _
        rw [hq]
        simp only [hdvd2, true_and]
        have hApt := (tail_slice_iff data (data.length % W) hrle).mp hA
        constructor
        · intro hp j hj
          by_cases hjb : j < data.length - data.length % W
          · have h1 := hp j (by rwa [hlen_take])
            rw [byteAt_take _ _ _ hjb,
              byteAt_take _ _ _ (lt_of_le_of_lt (Nat.mod_le j W) hjb)] at h1
            have hjmod : j % W < data.length - data.length % W :=
              lt_of_lt_of_le (Nat.mod_lt _ (by omega)) hWle
            exact h1
          · push_neg at hjb
            have hi : j - (data.length - data.length % W) < data.length % W := by omega
            have h2 := hApt (j - (data.length - data.length % W)) hi
            rw [show data.length - data.length % W + (j - (data.length - data.length % W)) = j
              by omega] at h2
            have hmod : j % W = j - (data.length - data.length % W) := by
              conv_lhs => rw [show j =
                W * (data.length / W) + (j - (data.length - data.length % W)) by omega]
              rw [Nat.mul_add_mod, Nat.mod_eq_of_lt (by omega)]
            rw [hmod]
            exact h2.symm
        · intro hp j hj
          rw [hlen_take] at hj
          have hjlen : j < data.length := by omega
          have h1 := hp j hjlen
          rw [byteAt_take _ _ _ hj,
            byteAt_take _ _ _ (lt_of_le_of_lt (Nat.mod_le j W) hj)]
          exact h1
      · rw [if_neg (by simp [beq_iff_eq, hA])]
        simp only [Bool.false_eq_true, false_iff]
        intro hp
        apply hA
        rw [tail_slice_iff data (data.length % W) hrle]
        intro i hi
        have hj : data.length - data.length % W + i < data.length := by omega
        have h1 := hp (data.length - data.length % W + i) hj
        rw [hbody, Nat.mul_add_mod, Nat.mod_eq_of_lt (by omega)] at h1
        rw [hbody]
        exact h1.symm

/-! The head/tail comparison of the tail scanner versus full periodicity. -/

theorem tail_iff_periodic (data : ByteSeq) (s : Nat) (hs1 : 1 ≤ s)
    (hs2 : s < data.length) :
    (data.drop (data.length - s) = data.take s) ↔
      isPeriodic data (data.length - s) := by
  rw [eq_comm, tail_slice_iff data s (by omega),
    periodic_iff_shift data _ (by omega)]
  constructor
  · intro h i hi
    have h1 := h i (by omega)
    rw [show data.length - s + i = i + (data.length - s) by omega] at h1
    exact h1.symm
  · intro h i hi
    have h1 := h i (by omega)
    rw [show i + (data.length - s) = data.length - s + i by omega] at h1
    exact h1.symm

theorem bool_eq_of_iff {a b : Bool} (h : a = true ↔ b = true) : a = b := by
  cases a <;> cases b <;> simp_all

/-! Characterization of the tail-scanner countdown loop. -/

theorem check_end_go_some (data : ByteSeq) :
    ∀ (k w : Nat), check_end_go data k = some w →
      ∃ s, 1 ≤ s ∧ s ≤ k ∧ s < data.length ∧
        data.drop (data.length - s) = data.take s ∧ w = data.length - s ∧
        ∀ t, s < t → t ≤ k → t < data.length →
          data.drop (data.length - t) ≠ data.take t := by
  intro k
  induction k with
  | zero => intro w hw; simp [check_end_go] at hw
  | succ k ih =>
    intro w hw
    rw [check_end_go] at hw
    by_cases hge : k + 1 ≥ data.length
    · rw [if_pos hge] at hw
      obtain ⟨s, h1, h2, h3, h4, h5, h6⟩ := ih w hw
      exact ⟨s, h1, by omega, h3, h4, h5, fun t ht1 ht2 ht3 =>
        h6 t ht1 (by omega) ht3⟩
    · rw [if_neg hge] at hw
      push_neg at hge
      by_cases heq : data.drop (data.length - (k + 1)) = data.take (k + 1)
      · rw [if_pos (beq_iff_eq.mpr heq)] at hw
        have hw2 := Option.some.inj hw
        refine ⟨k + 1, by omega, by omega, hge, heq, by omega, ?_⟩
        intro t ht1 ht2
        omega
      · rw [if_neg (by simp [beq_iff_eq, heq])] at hw
        obtain ⟨s, h1, h2, h3, h4, h5, h6⟩ := ih w hw
        refine ⟨s, h1, by omega, h3, h4, h5, ?_⟩
        intro t ht1 ht2 ht3
        rcases Nat.lt_or_ge t (k + 1) with hc | hc
        · exact h6 t ht1 (by omega) ht3
        · have : t = k + 1 := by omega
          subst this
          exact heq

theorem check_end_go_none (data : ByteSeq) :
    ∀ k, check_end_go data k = none →
      ∀ s, 1 ≤ s → s ≤ k → s < data.length →
        data.drop (data.length - s) ≠ data.take s := by
  intro k
  induction k with
  | zero => intro _ s h1 h2; omega
  | succ k ih =>
    intro hw s h1 h2 h3
    rw [check_end_go] at hw
    by_cases hge : k + 1 ≥ data.length
    · rw [if_pos hge] at hw
      exact ih hw s h1 (by omega) h3
    · rw [if_neg hge] at hw
      by_cases heq : data.drop (data.length - (k + 1)) = data.take (k + 1)
      · rw [if_pos (beq_iff_eq.mpr heq)] at hw
        simp at hw
      · rw [if_neg (by simp [beq_iff_eq, heq])] at hw
        rcases Nat.lt_or_ge s (k + 1) with hc | hc
        · exact ih hw s h1 (by omega) h3
        · have : s = k + 1 := by omega
          subst this
          exact heq

theorem check_end_go_isSome (data : ByteSeq) (k s : Nat) (h1 : 1 ≤ s)
    (h2 : s ≤ k) (h3 : s < data.length)
    (h4 : data.drop (data.length - s) = data.take s) :
    ∃ w, check_end_go data k = some w := by
  cases hc : check_end_go data k with
  | none => exact absurd h4 (check_end_go_none data k hc s h1 h2 h3)
  | some w => exact ⟨w, rfl⟩

/-! Behaviour of the orchestrator search loop. -/

theorem search_loop_some_char (data : ByteSeq) :
    ∀ (l : List Nat) (a : Nat) (W : Int), l.Pairwise (· < ·) →
      search_loop data l a = some W → W ≠ -1 →
      ∃ w : Nat, W = (w : Int) ∧
        ((w ∈ l ∧ data_repeats_with_width data w = true ∧
            ∀ o ∈ l, o < w → data_repeats_with_width data o = false) ∨
          (check_for_minimal_repeat_at_end data = some w ∧ w ≠ 0 ∧
            ∀ o ∈ l, data_repeats_with_width data o = false)) := by
  intro l
  induction l with
  | nil =>
    intro a W _ hW hW1
    rw [search_loop] at hW
    split at hW
    next w hc =>
      by_cases hw0 : w ≠ 0
      · rw [if_pos hw0] at hW
        have hWw : W = (w : Int) := (Option.some.inj hW).symm
        exact ⟨w, hWw, Or.inr ⟨hc, hw0, by simp⟩⟩
      · rw [if_neg hw0] at hW
        simp at hW
    next hc =>
      simp at hW
  | cons o rest ih =>
    intro a W hpw hW hW1
    have hpw2 : rest.Pairwise (· < ·) := hpw.sublist (List.sublist_cons_self o rest)
    rw [search_loop] at hW
    by_cases hchk : data_repeats_with_width data o = true
    · rw [if_pos hchk] at hW
      have hWo : W = (o : Int) := (Option.some.inj hW).symm
      refine ⟨o, hWo, Or.inl ⟨by simp, hchk, ?_⟩⟩
      intro o2 ho2 hlt
      rcases List.mem_cons.mp ho2 with rfl | ho3
      · omega
      · have : o < o2 := (List.pairwise_cons.mp hpw).1 o2 ho3
        omega
    · rw [if_neg hchk] at hW
      by_cases habort : a + 1 = MAXIMUM_WIDTH_ATTEMPTS
      · rw [if_pos habort] at hW
        exact absurd (Option.some.inj hW).symm hW1
      · rw [if_neg habort] at hW
        obtain ⟨w, hw1, hw2⟩ := ih (a + 1) W hpw2 hW hW1
        have hchk2 : data_repeats_with_width data o = false := by
          cases hcc : data_repeats_with_width data o
          · rfl
          · exact absurd hcc hchk
        rcases hw2 with ⟨hmem, hok, hmin⟩ | ⟨hend, hne, hall⟩
        · refine ⟨w, hw1, Or.inl ⟨by simp [hmem], hok, ?_⟩⟩
          intro o2 ho2 hlt
          rcases List.mem_cons.mp ho2 with rfl | ho3
          · exact hchk2
          · exact hmin o2 ho3 hlt
        · refine ⟨w, hw1, Or.inr ⟨hend, hne, ?_⟩⟩
          intro o2 ho2
          rcases List.mem_cons.mp ho2 with rfl | ho3
          · exact hchk2
          · exact hall o2 ho3

theorem search_loop_abort_iff (data : ByteSeq) :
    ∀ (l : List Nat) (a : Nat), a < MAXIMUM_WIDTH_ATTEMPTS →
      (search_loop data l a = some (-1) ↔
        (MAXIMUM_WIDTH_ATTEMPTS - a ≤ l.length ∧
          ∀ o ∈ l.take (MAXIMUM_WIDTH_ATTEMPTS - a),
            data_repeats_with_width data o = false)) := by
  intro l
  induction l with
  | nil =>
    intro a ha
    rw [search_loop]
    simp only [List.length_nil, List.take_nil]
    constructor
    · intro hW
      split at hW
      next w hc =>
        by_cases hw0 : w ≠ 0
        · rw [if_pos hw0] at hW
          have := Option.some.inj hW
          omega
        · rw [if_neg hw0] at hW
          simp at hW
      next hc =>
        simp at hW
    · rintro ⟨hlen, -⟩
      omega
  | cons o rest ih =>
    intro a ha
    rw [search_loop]
    have htake : (MAXIMUM_WIDTH_ATTEMPTS - a) = (MAXIMUM_WIDTH_ATTEMPTS - (a + 1)) + 1 := by omega
    by_cases hchk : data_repeats_with_width data o = true
    · rw [if_pos hchk]
      constructor
      · intro hW
        have := Option.some.inj hW
        omega
      · rintro ⟨-, hfail⟩
        have ho : o ∈ (o :: rest).take (MAXIMUM_WIDTH_ATTEMPTS - a) := by
          rw [htake, List.take_succ_cons]
          simp
        have := hfail o ho
        rw [hchk] at this
        simp at this
    · rw [if_neg hchk]
      have hchk2 : data_repeats_with_width data o = false := by
        cases hcc : data_repeats_with_width data o
        · rfl
        · exact absurd hcc hchk
      by_cases habort : a + 1 = MAXIMUM_WIDTH_ATTEMPTS
      · rw [if_pos habort]
        constructor
        · intro _
          have h1 : MAXIMUM_WIDTH_ATTEMPTS - a = 1 := by omega
          rw [h1, List.take_succ_cons, List.take_zero]
          refine ⟨by simp, ?_⟩
          intro o2 ho2
          simp at ho2
          subst ho2
          exact hchk2
        · intro _
          rfl
      · rw [if_neg habort]
        rw [ih (a + 1) (by omega)]
        rw [htake, List.take_succ_cons]
        constructor
        · rintro ⟨hlen, hfail⟩
          refine ⟨by simp; omega, ?_⟩
          intro o2 ho2
          rcases List.mem_cons.mp ho2 with rfl | ho3
          · exact hchk2
          · exact hfail o2 ho3
        · rintro ⟨hlen, hfail⟩
          refine ⟨by simp at hlen; omega, ?_⟩
          intro o2 ho2
          exact hfail o2 (by simp [ho2])

theorem search_loop_all_fail (data : ByteSeq) :
    ∀ (l : List Nat) (a : Nat),
      (∀ o ∈ l, data_repeats_with_width data o = false) →
      l.length + a < MAXIMUM_WIDTH_ATTEMPTS →
      search_loop data l a =
        (match check_for_minimal_repeat_at_end data with
          | some width => if width ≠ 0 then some (width : Int) else none
          | none => none) := by
  intro l
  induction l with
  | nil => intro a _ _; rw [search_loop]
  | cons o rest ih =>
    intro a hfail hlen
    rw [search_loop]
    have hchk : data_repeats_with_width data o = false := hfail o (by simp)
    rw [if_neg (by simp [hchk]), if_neg (by simp at hlen ⊢; omega)]
    exact ih (a + 1) (fun o2 ho2 => hfail o2 (by simp [ho2])) (by simp at hlen ⊢; omega)

theorem search_loop_found_min (data : ByteSeq) :
    ∀ (l : List Nat) (a o : Nat), l.Pairwise (· < ·) →
      a + l.length < MAXIMUM_WIDTH_ATTEMPTS → o ∈ l →
      data_repeats_with_width data o = true →
      ∃ w : Nat, w ∈ l ∧ w ≤ o ∧ data_repeats_with_width data w = true ∧
        search_loop data l a = some (w : Int) := by
  intro l
  induction l with
  | nil => intro a o _ _ ho; simp at ho
  | cons x rest ih =>
    intro a o hpw hlen ho hok
    have hpw2 : rest.Pairwise (· < ·) := hpw.sublist (List.sublist_cons_self x rest)
    rw [search_loop]
    by_cases hchk : data_repeats_with_width data x = true
    · refine ⟨x, by simp, ?_, hchk, by rw [if_pos hchk]⟩
      rcases List.mem_cons.mp ho with rfl | ho3
      · omega
      · have : x < o := (List.pairwise_cons.mp hpw).1 o ho3
        omega
    · rw [if_neg hchk]
      have ho3 : o ∈ rest := by
        rcases List.mem_cons.mp ho with rfl | ho3
        · exact absurd hok hchk
        · exact ho3
      rw [if_neg (by simp at hlen ⊢; omega)]
      obtain ⟨w, hw1, hw2, hw3, hw4⟩ :=
        ih (a + 1) o hpw2 (by simp at hlen ⊢; omega) ho3 hok
      exact ⟨w, by simp [hw1], hw2, hw3, hw4⟩

/-! Characterization of the candidate width generator. -/

theorem head_filter_least (P : Nat → Bool) :
    ∀ (l : List Nat) (s a : Nat), l.Pairwise (· < ·) →
      (l.filter fun x => decide (s ≤ x) && P x).head? = some a →
      l.filter (fun x => decide (s ≤ x) && P x) =
        a :: l.filter (fun x => decide (a + 1 ≤ x) && P x) := by
  intro l
  induction l with
  | nil => intro s a _ h; simp at h
  | cons x l ih =>
    intro s a hpw hh
    have hpw2 : l.Pairwise (· < ·) := hpw.sublist (List.sublist_cons_self x l)
    have hlt : ∀ y ∈ l, x < y := (List.pairwise_cons.mp hpw).1
    by_cases hc : (decide (s ≤ x) && P x) = true
    · simp only [List.filter_cons] at hh ⊢
      rw [if_pos hc] at hh ⊢
      have hax : a = x := (Option.some.inj hh).symm
      subst hax
      rw [if_neg (show ¬ (decide (a + 1 ≤ a) && P a) = true by
        rintro hcon
        simp only [Bool.and_eq_true, decide_eq_true_iff] at hcon
        omega)]
      congr 1
      apply List.filter_congr
      intro y hy
      have hxy : a < y := hlt y hy
      have hsx : s ≤ a := by
        have hc2 := hc
        simp only [Bool.and_eq_true, decide_eq_true_iff] at hc2
        exact hc2.1
      have e1 : decide (s ≤ y) = true := decide_eq_true (by omega)
      have e2 : decide (a + 1 ≤ y) = true := decide_eq_true (by omega)
      rw [e1, e2]
    · simp only [List.filter_cons] at hh ⊢
      rw [if_neg hc] at hh ⊢
      have heq := ih s a hpw2 hh
      rw [heq]
      have hal : a ∈ l := by
        have hmem : a ∈ l.filter (fun x => decide (s ≤ x) && P x) := by
          rw [heq]
          simp
        exact (List.mem_filter.mp hmem).1
      have hxa : x < a := hlt a hal
      rw [if_neg (show ¬ (decide (a + 1 ≤ x) && P x) = true by
        simp only [Bool.and_eq_true, decide_eq_true_iff, not_and]
        omega)]

theorem find_widths_go_eq (data pat : ByteSeq) :
    ∀ (fuel offset : Nat),
      ((List.range (data.length + 1)).filter
        (fun x => decide (offset + 1 ≤ x) && occursAt data pat x)).length ≤ fuel →
      find_widths_go data pat offset fuel =
        (List.range (data.length + 1)).filter
          (fun x => decide (offset + 1 ≤ x) && occursAt data pat x) := by
  intro fuel
  induction fuel with
  | zero =>
    intro offset hlen
    rw [find_widths_go]
    exact (List.length_eq_zero.mp (Nat.le_zero.mp hlen)).symm
  | succ fuel ih =>
    intro offset hlen
    rw [find_widths_go]
    cases hf : bytesFind data pat (offset + 1) with
    | none =>
      unfold bytesFind at hf
      rw [List.head?_eq_none_iff] at hf
      show ([] : List Nat) = _
      exact hf.symm
    | some o =>
      unfold bytesFind at hf
      have heq := head_filter_least (occursAt data pat)
        (List.range (data.length + 1)) (offset + 1) o
        (List.pairwise_lt_range _) hf
      show o :: find_widths_go data pat o fuel = _
      rw [heq]
      congr 1
      apply ih o
      have hlen2 := congrArg List.length heq
      simp only [List.length_cons] at hlen2
      omega

theorem widths_char (data : ByteSeq) :
    find_possible_repeat_widths data =
      (List.range (data.length + 1)).filter
        (fun x => decide (1 ≤ x) &&
          occursAt data (data.take SEARCH_BLOCK_SIZE) x) := by
  unfold find_possible_repeat_widths
  have h := find_widths_go_eq data (data.take SEARCH_BLOCK_SIZE)
    (data.length + 1) 0 (by
      calc ((List.range (data.length + 1)).filter
            (fun x => decide (0 + 1 ≤ x) &&
              occursAt data (data.take SEARCH_BLOCK_SIZE) x)).length
          ≤ (List.range (data.length + 1)).length := List.length_filter_le _ _
        _ = data.length + 1 := List.length_range _)
  simpa using h

theorem offsets_pairwise (data : ByteSeq) :
    (find_possible_repeat_widths data).Pairwise (· < ·) := by
  rw [widths_char]
  exact (List.pairwise_lt_range _).sublist (List.filter_sublist _)

theorem mem_offsets (data : ByteSeq) (o : Nat) :
    o ∈ find_possible_repeat_widths data ↔
      1 ≤ o ∧ occursAt data (data.take SEARCH_BLOCK_SIZE) o = true := by
  rw [widths_char, List.mem_filter]
  simp only [List.mem_range, Bool.and_eq_true, decide_eq_true_iff]
  constructor
  · rintro ⟨-, h1, h2⟩
    exact ⟨h1, h2⟩
  · rintro ⟨h1, h2⟩
    refine ⟨?_, h1, h2⟩
    unfold occursAt at h2
    simp only [Bool.and_eq_true, decide_eq_true_iff] at h2
    omega

theorem occursAt_iff (data : ByteSeq) (o : Nat)
    (hlen : SEARCH_BLOCK_SIZE ≤ data.length) :
    occursAt data (data.take SEARCH_BLOCK_SIZE) o = true ↔
      o + SEARCH_BLOCK_SIZE ≤ data.length ∧
        (data.drop o).take SEARCH_BLOCK_SIZE = data.take SEARCH_BLOCK_SIZE := by
  unfold occursAt
  have hp : (data.take SEARCH_BLOCK_SIZE).length = SEARCH_BLOCK_SIZE := by
    simp [List.length_take]
    omega
  rw [hp]
  simp [Bool.and_eq_true, decide_eq_true_iff, beq_iff_eq]

theorem isPeriodic_occursAt (data : ByteSeq) (w : Nat)
    (hw : SEARCH_BLOCK_SIZE ≤ w) (hwl : w + SEARCH_BLOCK_SIZE ≤ data.length)
    (hp : isPeriodic data w) :
    occursAt data (data.take SEARCH_BLOCK_SIZE) w = true := by
  rw [occursAt_iff data w (by omega)]
  refine ⟨hwl, ?_⟩
  apply eq_of_byteAt
  · simp [List.length_take, List.length_drop]
    omega
  · intro i hi
    have hi2 : i < SEARCH_BLOCK_SIZE := by
      simp [List.length_take, List.length_drop] at hi
      omega
    rw [byteAt_take _ _ _ hi2, byteAt_take _ _ _ hi2, byteAt_drop]
    have h1 := hp (w + i) (by omega)
    rw [Nat.add_mod_left, Nat.mod_eq_of_lt (by omega)] at h1
    exact h1

/-! Intervals as filtered ranges (used for the concrete abort scenario). -/

theorem range'_append_single (a : Nat) :
    ∀ n, List.range' a n ++ [a + n] = List.range' a (n + 1) := by
  intro n
  induction n generalizing a with
  | zero => simp
  | succ n ih =>
    rw [List.range'_succ, List.range'_succ]
    simp only [List.cons_append]
    rw [show a + (n + 1) = (a + 1) + n by omega, ih (a + 1)]

theorem filter_range_eq_range' :
    ∀ (N a b : Nat) (P : Nat → Bool), a ≤ b → b ≤ N →
      (∀ x, x < N → (P x = true ↔ a ≤ x ∧ x < b)) →
      (List.range N).filter P = List.range' a (b - a) := by
  intro N
  induction N with
  | zero =>
    intro a b P hab hbN _
    have hb : b = 0 := by omega
    have ha : a = 0 := by omega
    subst hb
    subst ha
    simp
  | succ N ih =>
    intro a b P hab hbN hiff
    rw [List.range_succ, List.filter_append]
    by_cases hbsmall : b ≤ N
    · have hPN : P N = false := by
        cases hc : P N
        · rfl
        · have := (hiff N (by omega)).mp hc
          omega
      rw [ih a b P hab hbsmall (fun x hx => hiff x (by omega))]
      simp [hPN]
    · have hbeq : b = N + 1 := by omega
      subst hbeq
      by_cases haN : a ≤ N
      · have h1 : (List.range N).filter P = List.range' a (N - a) :=
          ih a N P haN (le_refl N) (fun x hx =>
            ⟨fun h => by have := (hiff x (by omega)).mp h; omega,
              fun h => (hiff x (by omega)).mpr (by omega)⟩)
        have hPN : P N = true := (hiff N (by omega)).mpr (by omega)
        rw [h1]
        have h2 : List.filter P [N] = [N] := by simp [hPN]
        rw [h2]
        have h3 := range'_append_single a (N - a)
        rw [show a + (N - a) = N by omega] at h3
        rw [h3]
        congr 1
        omega
      · have ha : a = N + 1 := by omega
        subst ha
        have hPN : P N = false := by
          cases hc : P N
          · rfl
          · have := (hiff N (by omega)).mp hc
            omega
        have h1 : (List.range N).filter P = [] := by
          rw [List.filter_eq_nil_iff]
          intro x hx
          rw [List.mem_range] at hx
          intro hPx
          have := (hiff x (by omega)).mp hPx
          omega
        rw [h1]
        simp [hPN]

/-! Minimality of the first hit of a scan over an increasing list. -/

theorem find?_min (p : Nat → Bool) :
    ∀ (l : List Nat) (w : Nat), l.Pairwise (· < ·) → l.find? p = some w →
      ∀ x ∈ l, p x = true → w ≤ x := by
  intro l
  induction l with
  | nil => intro w _ hf; simp at hf
  | cons y l ih =>
    intro w hpw hf x hx hpx
    have hpw2 : l.Pairwise (· < ·) := hpw.sublist (List.sublist_cons_self y l)
    have hlt : ∀ z ∈ l, y < z := (List.pairwise_cons.mp hpw).1
    by_cases hy : p y = true
    · rw [List.find?_cons_of_pos _ hy] at hf
      have hwy : w = y := (Option.some.inj hf).symm
      subst hwy
      rcases List.mem_cons.mp hx with rfl | hx2
      · omega
      · have := hlt x hx2
        omega
    · rw [List.find?_cons_of_neg _ hy] at hf
      rcases List.mem_cons.mp hx with rfl | hx2
      · exact absurd hpx hy
      · exact ih w hpw2 hf x hx2 hpx

theorem pairwise_lt_range' (s n : Nat) : (List.range' s n).Pairwise (· < ·) := by
  rw [List.range'_eq_map_range, List.pairwise_map]
  apply List.Pairwise.imp ?_ (List.pairwise_lt_range n)
  intro a b hab
  omega

/-! What a found result of the orchestrator implies. -/

theorem data_repeats_found (data : ByteSeq) (W : Int)
    (hW : data_repeats data = some W) (hW1 : W ≠ -1) :
    ∃ w : Nat, W = (w : Int) ∧ 1 ≤ w ∧ w < data.length ∧ isPeriodic data w := by
  unfold data_repeats at hW
  by_cases h2 : data.length < 2
  · rw [if_pos h2] at hW
    simp at hW
  · rw [if_neg h2] at hW
    by_cases h32 : data.length ≤ SEARCH_BLOCK_SIZE
    · rw [if_pos h32] at hW
      split at hW
      next w hf =>
        have hWw : W = (w : Int) := (Option.some.inj hW).symm
        have hmem := List.mem_of_find?_eq_some hf
        have hchk := List.find?_some hf
        rw [List.mem_range'_1] at hmem
        have hw1 : 1 ≤ w := hmem.1
        have hw2 : w < data.length := by omega
        exact ⟨w, hWw, hw1, hw2, (width_char data w hw1).mp hchk⟩
      next hf =>
        simp at hW
    · rw [if_neg h32] at hW
      push_neg at h32
      obtain ⟨w, hWw, hw2⟩ :=
        search_loop_some_char data _ 0 W (offsets_pairwise data) hW hW1
      rcases hw2 with ⟨hmem, hchk, -⟩ | ⟨hend, hne, -⟩
      · have hm := (mem_offsets data w).mp hmem
        have h1 : 1 ≤ w := hm.1
        have hocc := hm.2
        rw [occursAt_iff data w (by omega)] at hocc
        have hsb : 0 < SEARCH_BLOCK_SIZE := by norm_num [SEARCH_BLOCK_SIZE]
        exact ⟨w, hWw, h1, by omega, (width_char data w h1).mp hchk⟩
      · unfold check_for_minimal_repeat_at_end at hend
        obtain ⟨s, hs1, hs2, hs3, hs4, hs5, -⟩ := check_end_go_some data _ w hend
        refine ⟨w, hWw, by omega, by omega, ?_⟩
        rw [hs5]
        exact (tail_iff_periodic data s hs1 hs3).mp hs4

/-! Consequences of full periodicity used by the round-trip claim. -/

theorem periodic_repeat_truncate (data : ByteSeq) (w : Nat)
    (hw1 : 1 ≤ w) (hw2 : w ≤ data.length) (hp : isPeriodic data w) :
    repeat_truncate (data.take w) data.length = data := by
  apply eq_of_byteAt
  · simp [repeat_truncate]
  · intro j hj
    have hj2 : j < data.length := by
      simpa [repeat_truncate] using hj
    have hwlen : (data.take w).length = w := by
      simp [List.length_take]
      omega
    have hmap : byteAt (repeat_truncate (data.take w) data.length) j =
        byteAt (data.take w) (j % (data.take w).length) := by
      unfold repeat_truncate byteAt
      rw [List.getD_eq_getElem?_getD, List.getElem?_map, List.getElem?_range hj2]
      simp [byteAt]
    rw [hmap, hwlen]
    have hjw : j % w < w := Nat.mod_lt _ (by omega)
    rw [byteAt_take _ _ _ hjw]
    exact (hp j hj2).symm

theorem periodic_tail_eq (data : ByteSeq) (w : Nat) (hw1 : 1 ≤ w)
    (hw2 : w ≤ data.length) (hp : isPeriodic data w) :
    data.take (data.length % w) =
      data.drop (data.length - data.length % w) := by
  rw [tail_slice_iff data _ (Nat.mod_le _ _)]
  intro i hi
  have hrw : data.length % w < w := Nat.mod_lt _ (by omega)
  have hbody : data.length - data.length % w = w * (data.length / w) := by
    have := Nat.div_add_mod data.length w
    omega
  have h1 := hp (data.length - data.length % w + i) (by omega)
  rw [hbody, Nat.mul_add_mod, Nat.mod_eq_of_lt (by omega)] at h1
  rw [hbody]
  exact h1.symm

theorem periodic_chunks (data : ByteSeq) (w : Nat) (hw1 : 1 ≤ w)
    (hw2 : w ≤ data.length) (hp : isPeriodic data w) :
    data_repeats_exactly_n_times
      (data.take (data.length - data.length % w))
      ((data.length - data.length % w) / w) = true := by
  have hbody : data.length - data.length % w = w * (data.length / w) := by
    have := Nat.div_add_mod data.length w
    omega
  have hq1 : 1 ≤ data.length / w := Nat.div_pos hw2 (by omega)
  have hlen_take : (data.take (data.length - data.length % w)).length =
      data.length - data.length % w := by
    simp [List.length_take]
  rw [naive_char, hlen_take]
  have hq : (data.length - data.length % w) / w = data.length / w := by
    rw [hbody]
    exact Nat.mul_div_cancel_left _ (by omega)
  have hdvd : (data.length - data.length % w) / w ∣
      data.length - data.length % w := by
    rw [hq, hbody]
    exact dvd_mul_left _ _
  refine ⟨hdvd, ?_⟩
  have hdivq : (data.length - data.length % w) /
      ((data.length - data.length % w) / w) = w := by
    rw [hq, hbody]
    exact Nat.mul_div_cancel w hq1
  rw [hdivq]
  intro j hj
  rw [hlen_take] at hj
  have hjlen : j < data.length := by omega
  rw [byteAt_take _ _ _ hj, byteAt_take _ _ _ (lt_of_le_of_lt (Nat.mod_le j w) hj)]
  exact hp j hjlen

/-- Claim C1: whenever `data_repeats` returns a width `W` (not None, not -1),
repeating `data[:W]` and truncating to `len(data)` reproduces `data`; the
fractional head `data[:len mod W]` equals the tail slice, and the whole-chunk
portion splits into byte-identical chunks of size `W`, on every return path
including the tail-scanner path. -/
theorem found_width_roundtrip (data : ByteSeq) (W : Int)
    (hW : data_repeats data = some W) (hW1 : W ≠ -1) :
    repeat_truncate (data.take W.toNat) data.length = data ∧
      data.take (data.length % W.toNat) =
        data.drop (data.length - data.length % W.toNat) ∧
      data_repeats_exactly_n_times
        (data.take (data.length - data.length % W.toNat))
        ((data.length - data.length % W.toNat) / W.toNat) = true := by
  obtain ⟨w, rfl, hw1, hw2, hp⟩ := data_repeats_found data W hW hW1
  rw [Int.toNat_natCast]
  exact ⟨periodic_repeat_truncate data w hw1 (by omega) hp,
    periodic_tail_eq data w hw1 (by omega) hp,
    periodic_chunks data w hw1 (by omega) hp⟩

theorem found_width_roundtrip_witness :
    repeat_truncate (([1, 2, 1, 2] : ByteSeq).take ((2 : Int)).toNat)
        ([1, 2, 1, 2] : ByteSeq).length = [1, 2, 1, 2] ∧
      ([1, 2, 1, 2] : ByteSeq).take (([1, 2, 1, 2] : ByteSeq).length % (2 : Int).toNat) =
        ([1, 2, 1, 2] : ByteSeq).drop
          (([1, 2, 1, 2] : ByteSeq).length -
            ([1, 2, 1, 2] : ByteSeq).length % (2 : Int).toNat) ∧
      data_repeats_exactly_n_times
        (([1, 2, 1, 2] : ByteSeq).take
          (([1, 2, 1, 2] : ByteSeq).length -
            ([1, 2, 1, 2] : ByteSeq).length % (2 : Int).toNat))
        ((([1, 2, 1, 2] : ByteSeq).length -
            ([1, 2, 1, 2] : ByteSeq).length % (2 : Int).toNat) / (2 : Int).toNat) = true :=
  found_width_roundtrip [1, 2, 1, 2] 2 (by decide) (by decide)

/-- Claim C2: the prime-factorization recursive validator agrees with the
naive validator on every buffer and every repeat count `n ≥ 1`. -/
theorem recursive_eq_naive (data : ByteSeq) (n : Nat) (hn : 1 ≤ n) :
    data_repeats_exactly_n_times_recursive data n =
      data_repeats_exactly_n_times data n := by
  apply bool_eq_of_iff
  rw [rec_char data n hn, naive_char data n]

theorem recursive_eq_naive_witness :
    data_repeats_exactly_n_times_recursive [1, 2, 1, 2] 2 =
      data_repeats_exactly_n_times [1, 2, 1, 2] 2 :=
  recursive_eq_naive [1, 2, 1, 2] 2 (by decide)

/-- Claim C8: any width returned by `data_repeats` (other than None / -1)
satisfies `1 ≤ W ≤ len(data) - 1`, on every return path. -/
theorem found_width_bounds (data : ByteSeq) (W : Int)
    (hW : data_repeats data = some W) (hW1 : W ≠ -1) :
    1 ≤ W ∧ W ≤ (data.length : Int) - 1 := by
  obtain ⟨w, rfl, hw1, hw2, -⟩ := data_repeats_found data W hW hW1
  omega

theorem found_width_bounds_witness :
    (1 : Int) ≤ 2 ∧ (2 : Int) ≤ ((([1, 2, 1, 2] : ByteSeq).length : Int)) - 1 :=
  found_width_bounds [1, 2, 1, 2] 2 (by decide) (by decide)

/-- Claim C9: buffers with fewer than two bytes yield NotFound, and the
search is total — every input yields NotFound, Aborted, or a positive
width (the embedding is total, so no exception path exists; every internal
division runs with a positive divisor). -/
theorem short_input_none_and_total :
    (∀ data : ByteSeq, data.length < 2 → data_repeats data = none) ∧
      (∀ data : ByteSeq, data_repeats data = none ∨
        data_repeats data = some (-1) ∨
        ∃ w : Nat, 1 ≤ w ∧ data_repeats data = some (w : Int)) := by
  constructor
  · intro data h
    unfold data_repeats
    rw [if_pos h]
  · intro data
    cases hc : data_repeats data with
    | none => exact Or.inl rfl
    | some W =>
      by_cases hW1 : W = -1
      · subst hW1
        exact Or.inr (Or.inl rfl)
      · obtain ⟨w, rfl, hw1, -, -⟩ := data_repeats_found data W hc hW1
        exact Or.inr (Or.inr ⟨w, hw1, rfl⟩)

theorem short_input_none_and_total_witness :
    data_repeats [] = none ∧ data_repeats [7] = none :=
  ⟨short_input_none_and_total.1 [] (by decide),
    short_input_none_and_total.1 [7] (by decide)⟩

/-- Claim C10: for `1 ≤ s < len(data)`, the single comparison
`data[-s:] == data[:s]` made by the tail scanner holds exactly when
`data_repeats_with_width(data, len(data) - s)` is true. -/
theorem tail_compare_iff_width_check (data : ByteSeq) (s : Nat)
    (hs1 : 1 ≤ s) (hs2 : s < data.length) :
    (data.drop (data.length - s) = data.take s) ↔
      data_repeats_with_width data (data.length - s) = true := by
  rw [tail_iff_periodic data s hs1 hs2, width_char data _ (by omega)]

theorem tail_compare_iff_width_check_witness :
    (([1, 2, 3, 1] : ByteSeq).drop (([1, 2, 3, 1] : ByteSeq).length - 1) =
        ([1, 2, 3, 1] : ByteSeq).take 1) ↔
      data_repeats_with_width [1, 2, 3, 1] (([1, 2, 3, 1] : ByteSeq).length - 1) = true :=
  tail_compare_iff_width_check [1, 2, 3, 1] 1 (by decide) (by decide)

/-- Claim C3: for buffers longer than the anchor size, a returned width `W`
is minimal among widths at least `SEARCH_BLOCK_SIZE`: no `W2` with
`SEARCH_BLOCK_SIZE ≤ W2 < W` passes the width feasibility check. -/
theorem found_width_minimal_above_block (data : ByteSeq) (W : Int) (W2 : Nat)
    (hlen : SEARCH_BLOCK_SIZE < data.length)
    (hW : data_repeats data = some W) (hW1 : W ≠ -1)
    (h1 : SEARCH_BLOCK_SIZE ≤ W2) (h2 : (W2 : Int) < W) :
    data_repeats_with_width data W2 = false := by
  have hsb32 : SEARCH_BLOCK_SIZE = 32 := rfl
  unfold data_repeats at hW
  rw [if_neg (by omega), if_neg (by omega)] at hW
  obtain ⟨w, hWw, hw2⟩ :=
    search_loop_some_char data _ 0 W (offsets_pairwise data) hW hW1
  subst hWw
  have hsb : (0 : Nat) < SEARCH_BLOCK_SIZE := by norm_num [SEARCH_BLOCK_SIZE]
  have hW2w : W2 < w := by omega
  cases hchk : data_repeats_with_width data W2 with
  | false => rfl
  | true =>
    exfalso
    have hp2 : isPeriodic data W2 := (width_char data W2 (by omega)).mp hchk
    rcases hw2 with ⟨hmem, hchkw, hmin⟩ | ⟨hend, hne, hall⟩
    · have hm := (mem_offsets data w).mp hmem
      have hocc := hm.2
      rw [occursAt_iff data w (by omega)] at hocc
      have hW2occ : occursAt data (data.take SEARCH_BLOCK_SIZE) W2 = true :=
        isPeriodic_occursAt data W2 h1 (by omega) hp2
      have hW2mem : W2 ∈ find_possible_repeat_widths data :=
        (mem_offsets data W2).mpr ⟨by omega, hW2occ⟩
      have hfail := hmin W2 hW2mem hW2w
      rw [hchk] at hfail
      simp at hfail
    · unfold check_for_minimal_repeat_at_end at hend
      obtain ⟨s, hs1, hs2, hs3, hs4, hs5, hs6⟩ := check_end_go_some data _ w hend
      by_cases hW2fits : W2 + SEARCH_BLOCK_SIZE ≤ data.length
      · have hW2occ := isPeriodic_occursAt data W2 h1 hW2fits hp2
        have hW2mem := (mem_offsets data W2).mpr ⟨by omega, hW2occ⟩
        have hfail := hall W2 hW2mem
        rw [hchk] at hfail
        simp at hfail
      · push_neg at hW2fits
        have ht1 : data.length - W2 ≤ SEARCH_BLOCK_SIZE - 1 := by omega
        have hst : s < data.length - W2 := by omega
        have ht2 : data.length - W2 < data.length := by omega
        have hper2 : isPeriodic data (data.length - (data.length - W2)) := by
          rw [show data.length - (data.length - W2) = W2 by omega]
          exact hp2
        have htm := (tail_iff_periodic data (data.length - W2) (by omega) ht2).mpr hper2
        exact hs6 (data.length - W2) hst ht1 ht2 htm

theorem found_width_minimal_above_block_witness :
    data_repeats (List.range 33 ++ List.range 33) = some 33 ∧
      data_repeats_with_width (List.range 33 ++ List.range 33) 32 = false :=
  ⟨by decide,
    found_width_minimal_above_block (List.range 33 ++ List.range 33) 33 32
      (by decide) (by decide) (by decide) (by decide) (by decide)⟩

/-- Claim C4 counterexample: width 33 satisfies the feasibility check on the
33-byte-longer buffer `range 33 ++ []`-style input of 33 distinct bytes, is at
least `SEARCH_BLOCK_SIZE`, yet is never yielded by the generator (its anchor
occurrence would overhang the end of the buffer), refuting the claimed
completeness of the yielded offsets. -/
theorem width_generator_completeness_counterexample :
    data_repeats_with_width (List.range 33) 33 = true ∧
      SEARCH_BLOCK_SIZE ≤ 33 ∧ 32 < (List.range 33).length ∧
      33 ∉ find_possible_repeat_widths (List.range 33) := by
  decide

/-- Claim C4, amended: for buffers longer than `SEARCH_BLOCK_SIZE` the
generator yields a strictly increasing sequence of offsets, each at least 1
and each a verbatim occurrence of the anchor block, and it is complete for
widths `W` with `SEARCH_BLOCK_SIZE ≤ W` whose anchor occurrence fits in the
buffer (`W + SEARCH_BLOCK_SIZE ≤ len(data)`) — the fit condition is the
amendment forced by the counterexample. -/
theorem width_generator_sound_complete_amended (data : ByteSeq)
    (hlen : SEARCH_BLOCK_SIZE < data.length) :
    (find_possible_repeat_widths data).Pairwise (· < ·) ∧
      (∀ o ∈ find_possible_repeat_widths data,
        1 ≤ o ∧ (data.drop o).take SEARCH_BLOCK_SIZE = data.take SEARCH_BLOCK_SIZE) ∧
      (∀ W2 : Nat, SEARCH_BLOCK_SIZE ≤ W2 → W2 + SEARCH_BLOCK_SIZE ≤ data.length →
        data_repeats_with_width data W2 = true →
        W2 ∈ find_possible_repeat_widths data) := by
  have hsb32 : SEARCH_BLOCK_SIZE = 32 := rfl
  refine ⟨offsets_pairwise data, ?_, ?_⟩
  · intro o ho
    have hm := (mem_offsets data o).mp ho
    exact ⟨hm.1, ((occursAt_iff data o (by omega)).mp hm.2).2⟩
  · intro W2 h1 h2 hchk
    have hp2 : isPeriodic data W2 := (width_char data W2 (by omega)).mp hchk
    exact (mem_offsets data W2).mpr
      ⟨by omega, isPeriodic_occursAt data W2 h1 h2 hp2⟩

theorem width_generator_sound_complete_amended_witness :
    (find_possible_repeat_widths (List.range 33 ++ List.range 33)).Pairwise (· < ·) ∧
      (∀ o ∈ find_possible_repeat_widths (List.range 33 ++ List.range 33),
        1 ≤ o ∧ ((List.range 33 ++ List.range 33).drop o).take SEARCH_BLOCK_SIZE =
          (List.range 33 ++ List.range 33).take SEARCH_BLOCK_SIZE) ∧
      (∀ W2 : Nat, SEARCH_BLOCK_SIZE ≤ W2 →
        W2 + SEARCH_BLOCK_SIZE ≤ (List.range 33 ++ List.range 33).length →
        data_repeats_with_width (List.range 33 ++ List.range 33) W2 = true →
        W2 ∈ find_possible_repeat_widths (List.range 33 ++ List.range 33)) :=
  width_generator_sound_complete_amended (List.range 33 ++ List.range 33) (by decide)

/-! The naive validator on an exact n-fold repetition. -/

theorem byteAt_flatten_replicate (B : ByteSeq) :
    ∀ (n j : Nat), j < n * B.length →
      byteAt (List.replicate n B).flatten j = byteAt B (j % B.length) := by
  intro n
  induction n with
  | zero =>
    intro j hj
    rw [Nat.zero_mul] at hj
    exact absurd hj (by omega)
  | succ n ih =>
    intro j hj
    rw [List.replicate_succ, List.flatten_cons]
    by_cases hjB : j < B.length
    · have h1 : byteAt (B ++ (List.replicate n B).flatten) j = byteAt B j := by
        unfold byteAt
        rw [List.getD_eq_getElem?_getD, List.getD_eq_getElem?_getD,
          List.getElem?_append_left hjB]
      rw [h1, Nat.mod_eq_of_lt hjB]
    · push_neg at hjB
      have hB0 : 0 < B.length := by
        rcases Nat.eq_zero_or_pos B.length with h0 | h0
        · rw [h0, Nat.mul_zero] at hj
          omega
        · exact h0
      have h1 : byteAt (B ++ (List.replicate n B).flatten) j =
          byteAt (List.replicate n B).flatten (j - B.length) := by
        unfold byteAt
        rw [List.getD_eq_getElem?_getD, List.getD_eq_getElem?_getD,
          List.getElem?_append_right hjB]
      have hexp : (n + 1) * B.length = n * B.length + B.length := by ring
      rw [h1, ih (j - B.length) (by omega)]
      congr 1
      conv_rhs => rw [show j = (j - B.length) + B.length by omega]
      rw [Nat.add_mod_right]

theorem length_flatten_replicate (B : ByteSeq) (n : Nat) :
    (List.replicate n B).flatten.length = n * B.length := by
  rw [List.length_flatten, List.map_replicate]
  simp [List.sum_replicate]

/-- Claim C6 counterexample: for `n = 1` and block `B = [65]`, appending the
extra byte 66 leaves the naive validator true — `isExactRepeat(B ++ b, 1)` is
true for every buffer, so the second half of the claim fails at `n = 1`. -/
theorem exact_repeat_append_counterexample :
    data_repeats_exactly_n_times ((List.replicate 1 [65]).flatten ++ [66]) 1 = true := by
  decide

/-- Claim C6, amended: for every `n ≥ 1` and non-empty block `B`, the naive
validator accepts `B` repeated `n` times; and appending any single extra byte
makes it reject, provided `n ≥ 2` (for `n = 1` it still accepts, as the
counterexample shows). -/
theorem exact_repeat_append_amended (n : Nat) (B : ByteSeq) (b : Nat)
    (hn : 1 ≤ n) (hB : B ≠ []) :
    data_repeats_exactly_n_times (List.replicate n B).flatten n = true ∧
      (2 ≤ n →
        data_repeats_exactly_n_times ((List.replicate n B).flatten ++ [b]) n = false) := by
  have hB0 : 0 < B.length := List.length_pos.mpr hB
  have hlen := length_flatten_replicate B n
  constructor
  · rw [naive_char]
    refine ⟨by rw [hlen]; exact Dvd.intro _ rfl, ?_⟩
    have hq : (List.replicate n B).flatten.length / n = B.length := by
      rw [hlen]
      exact Nat.mul_div_cancel_left _ (by omega)
    rw [hq]
    intro j hj
    rw [hlen] at hj
    rw [byteAt_flatten_replicate B n j hj,
      byteAt_flatten_replicate B n (j % B.length)
        (lt_of_lt_of_le (Nat.mod_lt _ hB0) (by
          calc B.length = 1 * B.length := by ring
            _ ≤ n * B.length := Nat.mul_le_mul_right _ hn)),
      Nat.mod_mod_of_dvd j (dvd_refl B.length)]
  · intro hn2
    unfold data_repeats_exactly_n_times
    rw [if_pos (show ¬ ((List.replicate n B).flatten ++ [b]).length % n = 0 by
      rw [List.length_append, hlen]
      simp only [List.length_cons, List.length_nil]
      rw [Nat.mul_add_mod, Nat.mod_eq_of_lt (by omega)]
      omega)]

theorem exact_repeat_append_amended_witness :
    data_repeats_exactly_n_times (List.replicate 2 [7]).flatten 2 = true ∧
      (2 ≤ 2 →
        data_repeats_exactly_n_times ((List.replicate 2 [7]).flatten ++ [9]) 2 = false) :=
  exact_repeat_append_amended 2 [7] 9 (by decide) (by decide)

/-- Claim C7 counterexample: for `core = [0, 0]` and `r = 1` the input
`core + core[:r]` is only 3 bytes, so the brute-force path runs and returns
width 1, not `len(core) = 2` via the tail scanner. -/
theorem tail_scanner_scenario_counterexample :
    data_repeats (([0, 0] : ByteSeq) ++ ([0, 0] : ByteSeq).take 1) = some 1 ∧
      data_repeats (([0, 0] : ByteSeq) ++ ([0, 0] : ByteSeq).take 1) ≠ some 2 := by
  decide

/-- Claim C7, amended: for `2 ≤ len(core) ≤ SEARCH_BLOCK_SIZE` and
`1 ≤ r < len(core)`, `data_repeats(core + core[:r])` always returns a found
width `W` with `1 ≤ W ≤ len(core)` at which the buffer repeats; `W` can be
smaller than `len(core)` and can come from the brute-force or generator path,
not only the tail scanner, as the counterexample shows. -/
theorem tail_scanner_scenario_amended (core : ByteSeq) (r : Nat)
    (h1 : 2 ≤ core.length) (h2 : core.length ≤ SEARCH_BLOCK_SIZE)
    (h3 : 1 ≤ r) (h4 : r < core.length) :
    ∃ w : Nat, data_repeats (core ++ core.take r) = some (w : Int) ∧
      1 ≤ w ∧ w ≤ core.length ∧
      data_repeats_with_width (core ++ core.take r) w = true := by
  have hsb32 : SEARCH_BLOCK_SIZE = 32 := rfl
  have hmax : MAXIMUM_WIDTH_ATTEMPTS = 1024 := rfl
  have hlen : (core ++ core.take r).length = core.length + r := by
    rw [List.length_append, List.length_take]
    omega
  have htail : (core ++ core.take r).drop ((core ++ core.take r).length - r) =
      (core ++ core.take r).take r := by
    rw [hlen, show core.length + r - r = core.length by omega,
      List.drop_left, List.take_append_of_le_length (by omega)]
  have hper : isPeriodic (core ++ core.take r) core.length := by
    have h5 := (tail_iff_periodic (core ++ core.take r) r h3 (by omega)).mp htail
    rwa [show (core ++ core.take r).length - r = core.length by omega] at h5
  have hchkc : data_repeats_with_width (core ++ core.take r) core.length = true :=
    (width_char _ core.length (by omega)).mpr hper
  by_cases hsmall : (core ++ core.take r).length ≤ SEARCH_BLOCK_SIZE
  · have hcmem : core.length ∈ List.range' 1 ((core ++ core.take r).length - 1) := by
      rw [List.mem_range'_1]
      omega
    obtain ⟨w, hfw⟩ : ∃ w, (List.range' 1 ((core ++ core.take r).length - 1)).find?
        (fun x => data_repeats_with_width (core ++ core.take r) x) = some w := by
      have hs : ((List.range' 1 ((core ++ core.take r).length - 1)).find?
          (fun x => data_repeats_with_width (core ++ core.take r) x)).isSome :=
        List.find?_isSome.mpr ⟨core.length, hcmem, hchkc⟩
      exact Option.isSome_iff_exists.mp hs
    have hwmem := List.mem_of_find?_eq_some hfw
    have hwchk := List.find?_some hfw
    rw [List.mem_range'_1] at hwmem
    have hwle : w ≤ core.length :=
      find?_min _ _ w (pairwise_lt_range' _ _) hfw core.length hcmem hchkc
    refine ⟨w, ?_, hwmem.1, hwle, hwchk⟩
    unfold data_repeats
    rw [if_neg (by omega), if_pos hsmall, hfw]
  · push_neg at hsmall
    have hofflen : (find_possible_repeat_widths (core ++ core.take r)).length <
        MAXIMUM_WIDTH_ATTEMPTS := by
      rw [widths_char]
      have hle := List.length_filter_le
        (fun x => decide (1 ≤ x) &&
          occursAt (core ++ core.take r)
            ((core ++ core.take r).take SEARCH_BLOCK_SIZE) x)
        (List.range ((core ++ core.take r).length + 1))
      rw [List.length_range] at hle
      omega
    by_cases hany : ∃ o ∈ find_possible_repeat_widths (core ++ core.take r),
        data_repeats_with_width (core ++ core.take r) o = true
    · obtain ⟨o, ho, hchko⟩ := hany
      obtain ⟨w, hw1, hw2, hw3, hw4⟩ := search_loop_found_min (core ++ core.take r)
        (find_possible_repeat_widths (core ++ core.take r)) 0 o
        (offsets_pairwise _) (by omega) ho hchko
      have hm := (mem_offsets _ w).mp hw1
      have hocc := (occursAt_iff _ w (by omega)).mp hm.2
      refine ⟨w, ?_, hm.1, by omega, hw3⟩
      unfold data_repeats
      rw [if_neg (by omega), if_neg (by omega)]
      exact hw4
    · push_neg at hany
      have hallfail : ∀ o ∈ find_possible_repeat_widths (core ++ core.take r),
          data_repeats_with_width (core ++ core.take r) o = false := by
        intro o ho
        have hne := hany o ho
        cases hc : data_repeats_with_width (core ++ core.take r) o
        · rfl
        · exact absurd hc hne
      have hloop := search_loop_all_fail (core ++ core.take r)
        (find_possible_repeat_widths (core ++ core.take r)) 0 hallfail (by omega)
      obtain ⟨w2, hw2⟩ := check_end_go_isSome (core ++ core.take r)
        (SEARCH_BLOCK_SIZE - 1) r h3 (by omega) (by omega) htail
      obtain ⟨s, hs1, hs2, hs3, hs4, hs5, hs6⟩ := check_end_go_some _ _ w2 hw2
      have hsr : r ≤ s := by
        by_contra hcon
        push_neg at hcon
        exact hs6 r hcon (by omega) (by omega) htail
      have hw2c : w2 ≤ core.length := by omega
      have hw2per : isPeriodic (core ++ core.take r) w2 := by
        rw [hs5]
        exact (tail_iff_periodic _ s hs1 hs3).mp hs4
      have hw2chk : data_repeats_with_width (core ++ core.take r) w2 = true :=
        (width_char _ w2 (by omega)).mpr hw2per
      refine ⟨w2, ?_, by omega, hw2c, hw2chk⟩
      unfold data_repeats
      rw [if_neg (by omega), if_neg (by omega), hloop]
      unfold check_for_minimal_repeat_at_end
      rw [hw2]
      show (if w2 ≠ 0 then some ((w2 : Nat) : Int) else none) = some ((w2 : Nat) : Int)
      rw [if_pos (show w2 ≠ 0 by omega)]

theorem tail_scanner_scenario_amended_witness :
    ∃ w : Nat, data_repeats (([1, 2] : ByteSeq) ++ ([1, 2] : ByteSeq).take 1) =
        some (w : Int) ∧
      1 ≤ w ∧ w ≤ ([1, 2] : ByteSeq).length ∧
      data_repeats_with_width (([1, 2] : ByteSeq) ++ ([1, 2] : ByteSeq).take 1) w = true :=
  tail_scanner_scenario_amended [1, 2] 1 (by decide) (by decide) (by decide) (by decide)

/-! Byte-level facts about the pathological all-equal-then-one-different
input used by the abort scenario. -/

theorem patho_length : (List.replicate 2048 65 ++ [66] : ByteSeq).length = 2049 := by
  rw [List.length_append, List.length_replicate]
  rfl

theorem patho_byteAt_lt (j : Nat) (hj : j < 2048) :
    byteAt (List.replicate 2048 65 ++ [66]) j = 65 := by
  unfold byteAt
  rw [List.getD_eq_getElem?_getD,
    List.getElem?_append_left (by rw [List.length_replicate]; omega),
    List.getElem?_replicate, if_pos hj]
  rfl

theorem patho_byteAt_last :
    byteAt (List.replicate 2048 65 ++ [66]) 2048 = 66 := by
  unfold byteAt
  rw [List.getD_eq_getElem?_getD,
    List.getElem?_append_right (by rw [List.length_replicate])]
  rw [List.length_replicate]
  rfl

theorem patho_occ_iff (x : Nat) (hx : x < 2050) :
    ((decide (1 ≤ x) &&
      occursAt (List.replicate 2048 65 ++ [66])
        ((List.replicate 2048 65 ++ [66] : ByteSeq).take SEARCH_BLOCK_SIZE) x) = true ↔
      1 ≤ x ∧ x < 2017) := by
  rw [Bool.and_eq_true, decide_eq_true_iff,
    occursAt_iff _ x (by rw [patho_length]; norm_num [SEARCH_BLOCK_SIZE])]
  rw [patho_length]
  constructor
  · rintro ⟨h1, h2, h3⟩
    refine ⟨h1, ?_⟩
    by_contra hcon
    push_neg at hcon
    have hsb32 : SEARCH_BLOCK_SIZE = 32 := rfl
    have hx2017 : x = 2017 := by omega
    subst hx2017
    have hb := congrArg (fun l => byteAt l 31) h3
    simp only at hb
    rw [byteAt_take _ _ _ (by decide), byteAt_take _ _ _ (by decide),
      byteAt_drop] at hb
    rw [show (2017 : Nat) + 31 = 2048 from rfl, patho_byteAt_last,
      patho_byteAt_lt 31 (by omega)] at hb
    omega
  · rintro ⟨h1, h2⟩
    have hsb32 : SEARCH_BLOCK_SIZE = 32 := rfl
    refine ⟨h1, by omega, ?_⟩
    apply eq_of_byteAt
    · rw [List.length_take, List.length_take, List.length_drop, patho_length]
      omega
    · intro i hi
      have hi2 : i < SEARCH_BLOCK_SIZE := by
        rw [List.length_take, List.length_drop, patho_length] at hi
        omega
      rw [byteAt_take _ _ _ hi2, byteAt_take _ _ _ hi2, byteAt_drop,
        patho_byteAt_lt (x + i) (by omega), patho_byteAt_lt i (by omega)]

theorem patho_offsets :
    find_possible_repeat_widths (List.replicate 2048 65 ++ [66]) =
      List.range' 1 2016 := by
  rw [widths_char, patho_length]
  exact filter_range_eq_range' 2050 1 2017 _ (by omega) (by omega) patho_occ_iff

/-- Claim C5: for buffers longer than the anchor block, `data_repeats`
aborts with -1 exactly when the generator yields at least
`MAXIMUM_WIDTH_ATTEMPTS` offsets and the first `MAXIMUM_WIDTH_ATTEMPTS` of
them all fail the width check (the abort is decided inside the loop, before
the tail scanner can contribute); in particular 2048 copies of one byte value
followed by a different byte yields -1. -/
theorem abort_iff_budget_exhausted :
    (∀ data : ByteSeq, SEARCH_BLOCK_SIZE < data.length →
      (data_repeats data = some (-1) ↔
        (MAXIMUM_WIDTH_ATTEMPTS ≤ (find_possible_repeat_widths data).length ∧
          ∀ o ∈ (find_possible_repeat_widths data).take MAXIMUM_WIDTH_ATTEMPTS,
            data_repeats_with_width data o = false))) ∧
      data_repeats (List.replicate 2048 65 ++ [66]) = some (-1) := by
  have hsb32 : SEARCH_BLOCK_SIZE = 32 := rfl
  have hmax : MAXIMUM_WIDTH_ATTEMPTS = 1024 := rfl
  have hiff : ∀ data : ByteSeq, SEARCH_BLOCK_SIZE < data.length →
      (data_repeats data = some (-1) ↔
        (MAXIMUM_WIDTH_ATTEMPTS ≤ (find_possible_repeat_widths data).length ∧
          ∀ o ∈ (find_possible_repeat_widths data).take MAXIMUM_WIDTH_ATTEMPTS,
            data_repeats_with_width data o = false)) := by
    intro data hlen
    unfold data_repeats
    rw [if_neg (by omega), if_neg (by omega)]
    have h := search_loop_abort_iff data (find_possible_repeat_widths data) 0
      (by omega)
    rwa [Nat.sub_zero] at h
  refine ⟨hiff, ?_⟩
  rw [hiff (List.replicate 2048 65 ++ [66]) (by rw [patho_length]; omega)]
  constructor
  · rw [patho_offsets, List.length_range']
    omega
  · intro o ho
    have ho2 : o ∈ find_possible_repeat_widths (List.replicate 2048 65 ++ [66]) :=
      List.take_subset _ _ ho
    have hm := (mem_offsets _ o).mp ho2
    have hocc := (occursAt_iff _ o
      (by rw [patho_length]; norm_num [SEARCH_BLOCK_SIZE])).mp hm.2
    rw [patho_length] at hocc
    cases hc : data_repeats_with_width (List.replicate 2048 65 ++ [66]) o
    · rfl
    · exfalso
      have hp := (width_char _ o hm.1).mp hc
      have h1 := hp 2048 (by rw [patho_length]; omega)
      have hmod : 2048 % o < 2048 := by
        have hlt : 2048 % o < o := Nat.mod_lt _ (by omega)
        omega
      rw [patho_byteAt_last, patho_byteAt_lt (2048 % o) hmod] at h1
      omega

theorem abort_iff_budget_exhausted_witness :
    data_repeats (List.range 33 ++ List.range 33) = some (-1) ↔
      (MAXIMUM_WIDTH_ATTEMPTS ≤
          (find_possible_repeat_widths (List.range 33 ++ List.range 33)).length ∧
        ∀ o ∈ (find_possible_repeat_widths
            (List.range 33 ++ List.range 33)).take MAXIMUM_WIDTH_ATTEMPTS,
          data_repeats_with_width (List.range 33 ++ List.range 33) o = false) :=
  abort_iff_budget_exhausted.1 (List.range 33 ++ List.range 33) (by decide)

